import Mathlib

/-!
# Verification of the DICOM-stack-to-STL reconstruction pipeline

Shallow embedding of the image-to-geometry pipeline of this repository:

* `src/binarization.py` — per-slice binarization (Otsu threshold + 59 bias,
  connected-component noise suppression, dilation, external contour fill,
  erosion);
* `src/convert_binarization_to_stl.py` — volume assembly from the mask files
  (numeric sort, resize, `img == 255` stacking), 3-D topology repair
  (morphological closing and hole filling), marching-cubes surface
  extraction, and STL triangle emission.

The Python sources call into OpenCV / SciPy / scikit-image for the low-level
image operations; those library internals are not part of this repository,
so each such operation is modelled here either from its call site in the
source (where the source fixes the semantics, e.g. `min(otsu + 59, 255)`,
`(img == 255).astype(np.uint8)`, the STL vertex-copy loop) or, where only
the library call appears in the source, from the specification's description
of the operation.  Machine `uint8` pixels are modelled as `ℕ` values
(every operation here keeps them in range, so no wraparound arises), and
OpenCV's `double` threshold arithmetic is modelled with exact rationals.
-/

namespace DicomStl

/-- A 2-D raster: `h × w` grid of natural-number intensity samples.
`px` is total; only indices `y < h`, `x < w` are meaningful, and every
operation below produces `0` outside that range. -/
structure Img where
  h : ℕ
  w : ℕ
  px : ℕ → ℕ → ℕ

/-- A mask file handed to the volume assembler: the numeric stem of the
filename (the slice index the assembler sorts by,
`int(os.path.splitext(os.path.basename(x))[0])`) together with the decoded
grayscale raster. -/
structure MaskFile where
  idx : ℤ
  img : Img

/-- Errors of the volume-assembly stage.  `missingInput` models the
`RuntimeError("画像が見つかりません")` raised when no files are found;
`inputShape` models the `ValueError` that `np.array(volume)` raises when
the stacked masks disagree on their post-resize dimensions. -/
inductive AsmError where
  | missingInput
  | inputShape
  deriving DecidableEq, Repr

/-- The assembled binary volume: a list of equally-sized binary layers,
stacked in slice order (depth = number of slices). -/
structure Volume where
  layers : List Img

/-- Insertion of a file into a list sorted by ascending numeric index
(stable, as Python's `sort` is). -/
def insertByIdx (f : MaskFile) : List MaskFile → List MaskFile
  | [] => [f]
  | g :: gs => if f.idx < g.idx then f :: g :: gs else g :: insertByIdx f gs

/-- `files.sort(key=lambda x: int(os.path.splitext(os.path.basename(x))[0]))`:
stable insertion sort by the numeric filename stem. -/
def sortFiles : List MaskFile → List MaskFile
  | [] => []
  | f :: fs => insertByIdx f (sortFiles fs)

/-- The fixed downsampling ratio of the source (`resize_ratio = 0.9`),
as a rational. -/
def resizeRatio : ℚ := 9 / 10

/-- `int(n * 0.9)`: the truncated scaled dimension used by
`cv2.resize(img, (int(img.shape[1]*0.9), int(img.shape[0]*0.9)), ...)`.
(The source computes this in floating point; on the dimension ranges of
real rasters the value agrees with exact rational arithmetic.) -/
def resizeDim (n : ℕ) : ℕ := (9 * n) / 10

/-- Nearest-neighbour resize (`cv2.resize(..., interpolation=cv2.INTER_NEAREST)`)
to the `0.9`-scaled dimensions: destination pixel `(y, x)` copies source pixel
`(⌊y·h/h'⌋, ⌊x·w/w'⌋)`.  Every output pixel is a copy of some input pixel, so
no new pixel values are introduced. -/
def resizeMask (m : Img) : Img where
  h := resizeDim m.h
  w := resizeDim m.w
  px := fun y x =>
    if y < resizeDim m.h ∧ x < resizeDim m.w then
      m.px ((y * m.h) / resizeDim m.h) ((x * m.w) / resizeDim m.w)
    else 0

/-- `(img == 255).astype(np.uint8)`: a voxel layer is `1` exactly where the
(post-resize) mask pixel equals `255`, else `0`. -/
def binarizeLayer (m : Img) : Img where
  h := m.h
  w := m.w
  px := fun y x => if y < m.h ∧ x < m.w ∧ m.px y x = 255 then 1 else 0

/-- The per-file processing of the assembly loop: resize (the source's
`resize_ratio = 0.9 < 1.0` branch is always taken), then binarize. -/
def assembledLayers (files : List MaskFile) : List Img :=
  (sortFiles files).map (fun f => binarizeLayer (resizeMask f.img))

/-- Dimension agreement of all stacked layers (what `np.array(volume)`
checks implicitly: a ragged list of 2-D arrays cannot be stacked and makes
it raise). -/
def dimsConsistent : List Img → Bool
  | [] => true
  | m :: ms => ms.all (fun n => n.h == m.h && n.w == m.w)

/-- VolumeAssembler: sort the mask files numerically, fail with
`missingInput` when there are none (`if not files: raise RuntimeError`),
resize and binarize each, and stack; fail with `inputShape` when the
post-resize dimensions disagree. -/
def assemble (files : List MaskFile) : Except AsmError Volume :=
  if files.isEmpty then .error .missingInput
  else if dimsConsistent (assembledLayers files) then .ok ⟨assembledLayers files⟩
  else .error .inputShape

/-- Sorted slice indices of a file list. -/
def sortedIdxs (files : List MaskFile) : List ℤ :=
  (sortFiles files).map MaskFile.idx

/-- Whether consecutive sorted indices always differ by exactly one. -/
def consecutive : List ℤ → Bool
  | [] => true
  | [_] => true
  | a :: b :: rest => decide (b = a + 1) && consecutive (b :: rest)

/-- A gap in the numeric slice sequence: the sorted indices are not
consecutive. -/
def hasGap (files : List MaskFile) : Bool := !consecutive (sortedIdxs files)

/-! ## Assembly lemmas -/

theorem mem_insertByIdx {g f : MaskFile} {l : List MaskFile} :
    g ∈ insertByIdx f l ↔ g = f ∨ g ∈ l := by
  induction l with
  | nil => simp [insertByIdx]
  | cons a l ih =>
    by_cases h : f.idx < a.idx
    · simp [insertByIdx, h]
    · simp [insertByIdx, h, ih]
      tauto

theorem mem_sortFiles {f : MaskFile} {files : List MaskFile} :
    f ∈ sortFiles files ↔ f ∈ files := by
  induction files with
  | nil => simp [sortFiles]
  | cons a l ih => simp [sortFiles, mem_insertByIdx, ih]

theorem dimsConsistent_pair {ms : List Img} (h : dimsConsistent ms = true)
    {a b : Img} (ha : a ∈ ms) (hb : b ∈ ms) : a.h = b.h ∧ a.w = b.w := by
  cases ms with
  | nil => cases ha
  | cons m l =>
    have hall : ∀ n ∈ l, n.h = m.h ∧ n.w = m.w := by
      intro n hn
      have := List.all_eq_true.mp h n hn
      simp only [Bool.and_eq_true, beq_iff_eq] at this
      exact this
    have key : ∀ c ∈ (m :: l), c.h = m.h ∧ c.w = m.w := by
      intro c hc
      rcases List.mem_cons.mp hc with rfl | hc
      · exact ⟨rfl, rfl⟩
      · exact hall c hc
    obtain ⟨h1, h2⟩ := key a ha
    obtain ⟨h3, h4⟩ := key b hb
    exact ⟨h1.trans h3.symm, h2.trans h4.symm⟩

/-! ## Claim theorems: volume assembly -/

/-- C6: on the empty input sequence VolumeAssembler fails with the fatal
`missingInput` error (the `if not files: raise RuntimeError` check) and
produces no volume; on every non-empty sequence that error is not raised. -/
theorem assemble_empty_iff_missingInput :
    assemble [] = Except.error AsmError.missingInput ∧
    ∀ files : List MaskFile, files ≠ [] →
      assemble files ≠ Except.error AsmError.missingInput := by
  refine ⟨rfl, ?_⟩
  intro files hne
  have hempty : files.isEmpty = false := by
    cases files with
    | nil => exact absurd rfl hne
    | cons a l => rfl
  unfold assemble
  rw [hempty]
  simp only [Bool.false_eq_true, if_false]
  split
  · intro h; cases h
  · intro h
    have : AsmError.inputShape = AsmError.missingInput := by
      injection h
    cases this

/-- Witness for C6 at a concrete non-empty input. -/
theorem assemble_empty_iff_missingInput_witness :
    assemble [⟨0, ⟨2, 2, fun _ _ => 255⟩⟩] ≠
      Except.error AsmError.missingInput :=
  assemble_empty_iff_missingInput.2 [⟨0, ⟨2, 2, fun _ _ => 255⟩⟩]
    (List.cons_ne_nil _ _)

/-- C7: whenever two mask files in the sequence disagree on their
post-resize dimensions, VolumeAssembler aborts with the fatal `inputShape`
error (the stacking `np.array(volume)` cannot stack ragged layers) and
produces no volume. -/
theorem assemble_shape_mismatch {files : List MaskFile} {f g : MaskFile}
    (hf : f ∈ files) (hg : g ∈ files)
    (hdim : ¬ (resizeDim f.img.h = resizeDim g.img.h ∧
               resizeDim f.img.w = resizeDim g.img.w)) :
    assemble files = Except.error AsmError.inputShape := by
  have hempty : files.isEmpty = false := by
    cases files with
    | nil => cases hf
    | cons a l => rfl
  unfold assemble
  rw [hempty]
  simp only [Bool.false_eq_true, if_false]
  split
  · next hcons =>
    exfalso
    apply hdim
    have hfl : binarizeLayer (resizeMask f.img) ∈ assembledLayers files := by
      exact List.mem_map_of_mem _ (mem_sortFiles.mpr hf)
    have hgl : binarizeLayer (resizeMask g.img) ∈ assembledLayers files := by
      exact List.mem_map_of_mem _ (mem_sortFiles.mpr hg)
    exact dimsConsistent_pair hcons hfl hgl
  · rfl

/-- Witness for C7: two constant masks of different sizes (post-resize
`1×1` versus `2×2`) make assembly fail with `inputShape`. -/
theorem assemble_shape_mismatch_witness :
    assemble [⟨0, ⟨2, 2, fun _ _ => 255⟩⟩, ⟨1, ⟨3, 3, fun _ _ => 255⟩⟩] =
      Except.error AsmError.inputShape :=
  @assemble_shape_mismatch
    [⟨0, ⟨2, 2, fun _ _ => 255⟩⟩, ⟨1, ⟨3, 3, fun _ _ => 255⟩⟩]
    ⟨0, ⟨2, 2, fun _ _ => 255⟩⟩ ⟨1, ⟨3, 3, fun _ _ => 255⟩⟩
    (List.mem_cons_self _ _)
    (List.mem_cons_of_mem _ (List.mem_cons_self _ _))
    (by decide)

/-- C10: a successfully assembled volume consists exactly of the sorted,
resized, binarized layers; a voxel is `1` iff the corresponding post-resize
mask pixel equals exactly `255` (any other value, e.g. `254`, gives `0`),
and every voxel is `0` or `1`. -/
theorem assemble_binarization {files : List MaskFile} {vol : Volume}
    (hok : assemble files = Except.ok vol) :
    vol.layers = assembledLayers files ∧
    (∀ f ∈ sortFiles files, ∀ y x,
      ((binarizeLayer (resizeMask f.img)).px y x = 1 ↔
        (y < (resizeMask f.img).h ∧ x < (resizeMask f.img).w ∧
          (resizeMask f.img).px y x = 255))) ∧
    ∀ m ∈ vol.layers, ∀ y x, m.px y x = 0 ∨ m.px y x = 1 := by
  have hlayers : vol.layers = assembledLayers files := by
    unfold assemble at hok
    split at hok
    · cases hok
    · split at hok
      · cases hok
        rfl
      · cases hok
  refine ⟨hlayers, ?_, ?_⟩
  · intro f _ y x
    have hpx : (binarizeLayer (resizeMask f.img)).px y x
        = if y < (resizeMask f.img).h ∧ x < (resizeMask f.img).w ∧
            (resizeMask f.img).px y x = 255 then 1 else 0 := rfl
    rw [hpx]
    split
    · next hcond => exact iff_of_true rfl hcond
    · next hcond => exact iff_of_false (by decide) hcond
  · intro m hm y x
    rw [hlayers] at hm
    obtain ⟨f, _, rfl⟩ := List.mem_map.mp hm
    simp only [binarizeLayer]
    split
    · right; rfl
    · left; rfl

/-- Witness for C10 at a concrete one-slice input. -/
theorem assemble_binarization_witness :
    Volume.layers ⟨assembledLayers [⟨0, ⟨2, 2, fun _ _ => 255⟩⟩]⟩ =
      assembledLayers [⟨0, ⟨2, 2, fun _ _ => 255⟩⟩] :=
  (@assemble_binarization [⟨0, ⟨2, 2, fun _ _ => 255⟩⟩]
    ⟨assembledLayers [⟨0, ⟨2, 2, fun _ _ => 255⟩⟩]⟩ rfl).1

/-- C5 (counterexample): a non-empty sequence whose sorted numeric indices
have a gap (`0` then `2`) is assembled without any error — the source never
inspects the sorted indices for gaps, so the run does not abort. -/
theorem assemble_gap_not_fatal :
    hasGap [⟨0, ⟨2, 2, fun _ _ => 255⟩⟩, ⟨2, ⟨2, 2, fun _ _ => 255⟩⟩] = true ∧
    [⟨(0 : ℤ), ⟨2, 2, fun _ _ => 255⟩⟩,
      ⟨2, ⟨2, 2, fun _ _ => 255⟩⟩] ≠ ([] : List MaskFile) ∧
    (assemble [⟨0, ⟨2, 2, fun _ _ => 255⟩⟩,
               ⟨2, ⟨2, 2, fun _ _ => 255⟩⟩]).isOk = true := by
  refine ⟨?_, List.cons_ne_nil _ _, ?_⟩
  · decide
  · decide

/-- C5 (amended): VolumeAssembler succeeds on every non-empty sequence with
consistent post-resize shapes, gaps in the numeric slice indices included;
only emptiness (and shape mismatch) aborts the run. -/
theorem assemble_ignores_gaps {files : List MaskFile}
    (hne : files ≠ [])
    (hcons : dimsConsistent (assembledLayers files) = true) :
    assemble files = Except.ok ⟨assembledLayers files⟩ := by
  have hempty : files.isEmpty = false := by
    cases files with
    | nil => exact absurd rfl hne
    | cons a l => rfl
  unfold assemble
  rw [hempty]
  simp only [Bool.false_eq_true, if_false]
  rw [if_pos hcons]

/-- Witness for the amended C5, applied at the concrete gapped sequence. -/
theorem assemble_ignores_gaps_witness :
    assemble [⟨0, ⟨2, 2, fun _ _ => 255⟩⟩, ⟨2, ⟨2, 2, fun _ _ => 255⟩⟩] =
      Except.ok ⟨assembledLayers [⟨0, ⟨2, 2, fun _ _ => 255⟩⟩,
                                  ⟨2, ⟨2, 2, fun _ _ => 255⟩⟩]⟩ :=
  assemble_ignores_gaps (List.cons_ne_nil _ _) (by decide)

/-! ## MeshWriter: STL triangle emission

The source builds the STL triangle array with

```
solid_mesh = mesh.Mesh(np.zeros(faces.shape[0], dtype=mesh.Mesh.dtype))
for i, f in enumerate(faces):
    for j in range(3):
        solid_mesh.vectors[i][j] = verts[f[j], :]
```

modelled as an index-carrying fold that starts from a zero-filled triangle
list and overwrites entry `i` with the three vertices of face `i`. -/

/-- A 3-D point, in physical (millimetre) coordinates. -/
def Vec3 : Type := ℚ × ℚ × ℚ

/-- One STL triangle: its three vertex positions, in face order. -/
def Tri : Type := Vec3 × Vec3 × Vec3

/-- The all-zero vertex (`np.zeros` initialisation). -/
def zeroVec : Vec3 := (0, 0, 0)

/-- The all-zero triangle (`np.zeros` initialisation). -/
def zeroTri : Tri := (zeroVec, zeroVec, zeroVec)

/-- The mesh handed to MeshWriter: vertex positions plus triangular faces
given as triples of vertex indices (the `verts, faces` arrays returned by
the surface extraction). -/
structure IndexedMesh where
  verts : List Vec3
  faces : List (ℕ × ℕ × ℕ)

/-- The triangle of one face: `(verts[f[0]], verts[f[1]], verts[f[2]])`,
in the order given by the face index triple. -/
def triOf (verts : List Vec3) (f : ℕ × ℕ × ℕ) : Tri :=
  (verts.getD f.1 zeroVec, verts.getD f.2.1 zeroVec, verts.getD f.2.2 zeroVec)

/-- The `for i, f in enumerate(faces)` loop: overwrite output entry `i`
with the vertices of face `f`. -/
def writeLoop (verts : List Vec3) : List (ℕ × ℕ × ℕ) → ℕ → List Tri → List Tri
  | [], _, out => out
  | f :: fs, i, out => writeLoop verts fs (i + 1) (out.set i (triOf verts f))

/-- MeshWriter's triangle buffer: zero-initialised
(`np.zeros(faces.shape[0])`), then filled by the enumerate loop. -/
def meshWriter (m : IndexedMesh) : List Tri :=
  writeLoop m.verts m.faces 0 (List.replicate m.faces.length zeroTri)

theorem set_at_append_length {α : Type} (pre : List α) (a : α) (rest : List α)
    (v : α) : (pre ++ a :: rest).set pre.length v = pre ++ v :: rest := by
  induction pre with
  | nil => rfl
  | cons b l ih => simp [List.set, ih]

theorem writeLoop_eq_map (verts : List Vec3) (fs : List (ℕ × ℕ × ℕ))
    (pre : List Tri) :
    writeLoop verts fs pre.length (pre ++ List.replicate fs.length zeroTri) =
      pre ++ fs.map (triOf verts) := by
  induction fs generalizing pre with
  | nil => simp [writeLoop]
  | cons f fs ih =>
    have hset : (pre ++ List.replicate (f :: fs).length zeroTri).set pre.length
        (triOf verts f)
        = (pre ++ [triOf verts f]) ++ List.replicate fs.length zeroTri := by
      rw [show List.replicate (f :: fs).length zeroTri
            = zeroTri :: List.replicate fs.length zeroTri from rfl]
      rw [set_at_append_length]
      simp
    have hlen : pre.length + 1 = (pre ++ [triOf verts f]).length := by simp
    calc writeLoop verts (f :: fs) pre.length
          (pre ++ List.replicate (f :: fs).length zeroTri)
        = writeLoop verts fs (pre.length + 1)
            ((pre ++ [triOf verts f]) ++ List.replicate fs.length zeroTri) := by
          rw [writeLoop, hset]
      _ = (pre ++ [triOf verts f]) ++ fs.map (triOf verts) := by
          rw [hlen, ih]
      _ = pre ++ (f :: fs).map (triOf verts) := by simp

theorem meshWriter_eq_map (m : IndexedMesh) :
    meshWriter m = m.faces.map (triOf m.verts) := by
  have := writeLoop_eq_map m.verts m.faces []
  simpa [meshWriter] using this

/-- C9: MeshWriter emits the faces in order, and the `i`-th output triangle's
`j`-th vertex is exactly `verts[faces[i][j]]` — vertices are neither
reordered nor modified. -/
theorem meshWriter_exact (m : IndexedMesh) (i : ℕ) (hi : i < m.faces.length) :
    (meshWriter m).length = m.faces.length ∧
    (meshWriter m).getD i zeroTri =
      (m.verts.getD (m.faces.getD i (0, 0, 0)).1 zeroVec,
       m.verts.getD (m.faces.getD i (0, 0, 0)).2.1 zeroVec,
       m.verts.getD (m.faces.getD i (0, 0, 0)).2.2 zeroVec) := by
  rw [meshWriter_eq_map]
  refine ⟨by simp, ?_⟩
  have h1 : (m.faces.map (triOf m.verts)).getD i zeroTri
      = triOf m.verts (m.faces.get ⟨i, hi⟩) := by
    rw [List.getD_eq_getElem?_getD, List.getElem?_map,
      List.getElem?_eq_getElem hi]
    rfl
  have h2 : m.faces.getD i (0, 0, 0) = m.faces.get ⟨i, hi⟩ := by
    rw [List.getD_eq_getElem?_getD, List.getElem?_eq_getElem hi]
    rfl
  rw [h1, h2]
  rfl

/-- A concrete two-face sample mesh (a unit-tetrahedron fragment). -/
def sampleMesh : IndexedMesh where
  verts := [(0, 0, 0), (1, 0, 0), (0, 1, 0), (0, 0, 1)]
  faces := [(0, 1, 2), (1, 2, 3)]

/-- Witness for C9 at a concrete two-face mesh. -/
theorem meshWriter_exact_witness :
    (meshWriter sampleMesh).length = sampleMesh.faces.length ∧
    (meshWriter sampleMesh).getD 1 zeroTri =
      (sampleMesh.verts.getD (sampleMesh.faces.getD 1 (0, 0, 0)).1 zeroVec,
       sampleMesh.verts.getD (sampleMesh.faces.getD 1 (0, 0, 0)).2.1 zeroVec,
       sampleMesh.verts.getD (sampleMesh.faces.getD 1 (0, 0, 0)).2.2 zeroVec) :=
  meshWriter_exact sampleMesh 1 (by decide)

/-! ## Generic finite flood fill

Executable breadth-first saturation over a finite cell type, used for the
connected-component labelling of the noise-suppression step and for the
hole-filling flood fills (2-D external-contour fill, 3-D cavity fill).
`floodFill adj S` expands `S` by adjacency until stable; the
characterisation theorem identifies it with reflexive-transitive
reachability. -/

section Reach

variable {α : Type} [Fintype α] [DecidableEq α]

/-- One expansion step of a flood fill: add every cell adjacent to the
current set. -/
def expandStep (adj : α → α → Bool) (S : Finset α) : Finset α :=
  S ∪ Finset.univ.filter (fun q => ∃ p ∈ S, adj p q = true)

/-- Fuel-bounded saturation of `expandStep`, stopping early at a fixpoint. -/
def expandIter (adj : α → α → Bool) : ℕ → Finset α → Finset α
  | 0, S => S
  | n + 1, S =>
    if expandStep adj S = S then S else expandIter adj n (expandStep adj S)

/-- The set of cells reachable from `S` along `adj`: saturation with enough
fuel (`Fintype.card α`) to guarantee a fixpoint. -/
def floodFill (adj : α → α → Bool) (S : Finset α) : Finset α :=
  expandIter adj (Fintype.card α) S

theorem subset_expandStep (adj : α → α → Bool) (S : Finset α) :
    S ⊆ expandStep adj S :=
  Finset.subset_union_left

theorem mem_expandStep {adj : α → α → Bool} {S : Finset α} {q : α} :
    q ∈ expandStep adj S ↔ q ∈ S ∨ ∃ p ∈ S, adj p q = true := by
  simp [expandStep]

theorem subset_expandIter (adj : α → α → Bool) (n : ℕ) (S : Finset α) :
    S ⊆ expandIter adj n S := by
  induction n generalizing S with
  | zero => exact fun _ h => h
  | succ n ih =>
    rw [expandIter]
    split
    · exact fun _ h => h
    · exact fun x hx => ih _ (subset_expandStep adj S hx)

theorem expandStep_expandIter (adj : α → α → Bool) (n : ℕ) (S : Finset α)
    (hcard : Fintype.card α ≤ n + S.card) :
    expandStep adj (expandIter adj n S) = expandIter adj n S := by
  induction n generalizing S with
  | zero =>
    have hS : S = Finset.univ :=
      S.eq_univ_of_card (le_antisymm (Finset.card_le_univ S) (by simpa using hcard))
    subst hS
    exact Finset.Subset.antisymm (Finset.subset_univ _)
      (subset_expandStep adj Finset.univ)
  | succ n ih =>
    rw [expandIter]
    split
    · next h => simp [h]
    · next h =>
      apply ih
      have hlt : S.card < (expandStep adj S).card :=
        Finset.card_lt_card (lt_of_le_of_ne (subset_expandStep adj S)
          (fun e => h e.symm))
      omega

theorem floodFill_closed (adj : α → α → Bool) (S : Finset α) :
    expandStep adj (floodFill adj S) = floodFill adj S :=
  expandStep_expandIter adj (Fintype.card α) S (Nat.le_add_right _ _)

theorem subset_floodFill (adj : α → α → Bool) (S : Finset α) :
    S ⊆ floodFill adj S :=
  subset_expandIter adj (Fintype.card α) S

theorem mem_floodFill_of_adj {adj : α → α → Bool} {S : Finset α} {p q : α}
    (hp : p ∈ floodFill adj S) (h : adj p q = true) :
    q ∈ floodFill adj S := by
  rw [← floodFill_closed adj S]
  exact mem_expandStep.mpr (Or.inr ⟨p, hp, h⟩)

theorem exists_reflTransGen_of_mem_expandIter {adj : α → α → Bool} {n : ℕ}
    {S : Finset α} {q : α} (hq : q ∈ expandIter adj n S) :
    ∃ p ∈ S, Relation.ReflTransGen (fun a b => adj a b = true) p q := by
  induction n generalizing S with
  | zero => exact ⟨q, hq, Relation.ReflTransGen.refl⟩
  | succ n ih =>
    rw [expandIter] at hq
    split at hq
    · exact ⟨q, hq, Relation.ReflTransGen.refl⟩
    · obtain ⟨p, hp, hr⟩ := ih hq
      rcases mem_expandStep.mp hp with hp | ⟨r, hr0, hadj⟩
      · exact ⟨p, hp, hr⟩
      · exact ⟨r, hr0, Relation.ReflTransGen.head hadj hr⟩

/-- `floodFill` computes exactly reflexive-transitive reachability. -/
theorem mem_floodFill_iff {adj : α → α → Bool} {S : Finset α} {q : α} :
    q ∈ floodFill adj S ↔
      ∃ p ∈ S, Relation.ReflTransGen (fun a b => adj a b = true) p q := by
  constructor
  · exact exists_reflTransGen_of_mem_expandIter
  · rintro ⟨p, hp, hr⟩
    induction hr with
    | refl => exact subset_floodFill adj S hp
    | tail _ hbc ih => exact mem_floodFill_of_adj ih hbc

end Reach

/-! ## TopologyRepairer: 3-D interior cavity filling

The source repairs the assembled volume with

```
struct = generate_binary_structure(3, 3)
volume_filled = binary_closing(volume, structure=struct, iterations=2)
volume_filled = binary_fill_holes(volume_filled).astype(np.uint8)
```

`binary_fill_holes` is a SciPy routine whose implementation is not part of
this repository; it is modelled here from the specification: «any
background voxel fully enclosed by foreground (not reachable from the
volume's outer boundary via background-connected flood fill) is
reclassified as foreground», with «26-neighbor connectivity in 3D» as the
spec stipulates for the reachability semantics.  (Note: the source passes
no structuring element to `binary_fill_holes`, so the connectivity used at
run time is SciPy's default; the 26-neighbour stipulation below comes from
the specification's own reproducibility note.)  The claim is about the
fill step applied to the post-closing volume, so the theorem quantifies
over arbitrary binary volumes. -/

/-- A binary voxel volume, dimensions `(depth, height, width)`; `vox` is
total, with only indices inside the dimensions meaningful. -/
structure Vol where
  d : ℕ
  h : ℕ
  w : ℕ
  vox : ℕ → ℕ → ℕ → Bool

/-- In-range voxel coordinates of a volume. -/
abbrev Cell3 (v : Vol) : Type := Fin v.d × Fin v.h × Fin v.w

/-- Whether a voxel is background. -/
def bgAt (v : Vol) (p : Cell3 v) : Bool := !v.vox p.1.val p.2.1.val p.2.2.val

/-- `|a - b| ≤ 1` on naturals. -/
def near1 (a b : ℕ) : Bool := (a == b) || (a + 1 == b) || (b + 1 == a)

/-- 26-neighbour adjacency between background voxels: distinct cells whose
coordinates each differ by at most one, both background. -/
def adj26 (v : Vol) (p q : Cell3 v) : Bool :=
  bgAt v p && bgAt v q && !(p == q) &&
    near1 p.1.val q.1.val && near1 p.2.1.val q.2.1.val &&
    near1 p.2.2.val q.2.2.val

/-- Whether a cell lies on the volume's outer boundary (one of its
coordinates is extremal). -/
def onBoundary3 (v : Vol) (p : Cell3 v) : Bool :=
  (p.1.val == 0) || (p.1.val + 1 == v.d) ||
  (p.2.1.val == 0) || (p.2.1.val + 1 == v.h) ||
  (p.2.2.val == 0) || (p.2.2.val + 1 == v.w)

/-- The background voxels on the outer boundary: the seeds of the
cavity-detection flood fill. -/
def bgBoundary (v : Vol) : Finset (Cell3 v) :=
  Finset.univ.filter (fun p => (bgAt v p && onBoundary3 v p) = true)

/-- All background voxels reachable from the outer boundary through
background, under 26-neighbour connectivity. -/
def outsideReach (v : Vol) : Finset (Cell3 v) :=
  floodFill (adj26 v) (bgBoundary v)

/-- Modelled from the spec: `binary_fill_holes` — every background voxel
not reachable from the outer boundary via background-connected flood fill
is reclassified as foreground; foreground voxels and reachable background
voxels are unchanged. -/
def fillHoles (v : Vol) : Vol where
  d := v.d
  h := v.h
  w := v.w
  vox := fun z y x =>
    if hz : z < v.d then
      if hy : y < v.h then
        if hx : x < v.w then
          v.vox z y x ||
            !(decide ((⟨⟨z, hz⟩, ⟨y, hy⟩, ⟨x, hx⟩⟩ : Cell3 v) ∈ outsideReach v))
        else false
      else false
    else false

/-- C2: after the closing step, `fillHoles` leaves a background voxel
background exactly when it is reachable from the volume's outer boundary
via a background-connected 26-neighbour path, reclassifies every other
background voxel as foreground, and keeps every foreground voxel
foreground. -/
theorem fillHoles_spec (v : Vol) (p : Cell3 v) :
    ((fillHoles v).vox p.1.val p.2.1.val p.2.2.val = false ↔
      v.vox p.1.val p.2.1.val p.2.2.val = false ∧
        ∃ b : Cell3 v, (bgAt v b && onBoundary3 v b) = true ∧
          Relation.ReflTransGen (fun a c => adj26 v a c = true) b p) ∧
    (v.vox p.1.val p.2.1.val p.2.2.val = true →
      (fillHoles v).vox p.1.val p.2.1.val p.2.2.val = true) := by
  have hvox : (fillHoles v).vox p.1.val p.2.1.val p.2.2.val =
      (v.vox p.1.val p.2.1.val p.2.2.val ||
        !(decide (p ∈ outsideReach v))) := by
    show (if hz : p.1.val < v.d then
        if hy : p.2.1.val < v.h then
          if hx : p.2.2.val < v.w then
            v.vox p.1.val p.2.1.val p.2.2.val ||
              !(decide ((⟨⟨p.1.val, hz⟩, ⟨p.2.1.val, hy⟩, ⟨p.2.2.val, hx⟩⟩ :
                Cell3 v) ∈ outsideReach v))
          else false
        else false
      else false) = _
    rw [dif_pos p.1.isLt, dif_pos p.2.1.isLt, dif_pos p.2.2.isLt]
  constructor
  · rw [hvox]
    simp only [Bool.or_eq_false_iff, Bool.not_eq_false', decide_eq_true_eq]
    constructor
    · rintro ⟨hbg, hmem⟩
      obtain ⟨b, hb, hr⟩ := mem_floodFill_iff.mp hmem
      exact ⟨hbg, b, (Finset.mem_filter.mp hb).2, hr⟩
    · rintro ⟨hbg, b, hb, hr⟩
      exact ⟨hbg, mem_floodFill_iff.mpr
        ⟨b, Finset.mem_filter.mpr ⟨Finset.mem_univ b, hb⟩, hr⟩⟩
  · intro hfg
    rw [hvox, hfg]
    rfl

/-! ## SliceBinarizer: Otsu threshold with fixed upward bias

The source computes

```
otsu_thresh, _ = cv2.threshold(img, 0, 255, cv2.THRESH_BINARY + cv2.THRESH_OTSU)
threshold_val = min(otsu_thresh + 59, 255)
_, binary = cv2.threshold(img, threshold_val, 255, cv2.THRESH_BINARY)
```

OpenCV's Otsu routine (`getThreshVal_Otsu_8u`) scans the 256-bin histogram
once, tracking the class probabilities and means incrementally, skipping
thresholds with an empty class, and keeping the first threshold that
strictly improves the between-class variance.  Its `double` arithmetic is
modelled with exact rationals (`FLT_EPSILON` guards become exact
emptiness tests).  `THRESH_BINARY` maps a pixel to `255` iff its intensity
strictly exceeds the threshold. -/

/-- Number of in-bounds pixels of the image with intensity `v`
(histogram bin `v`). -/
def histCount (img : Img) (v : ℕ) : ℕ :=
  ((Finset.range img.h ×ˢ Finset.range img.w).filter
    (fun c => img.px c.1 c.2 = v)).card

/-- Scan state of the Otsu loop: prefix probability `q1`, running
class-1 mean accumulator `mu1`, best variance so far and its threshold. -/
structure OtsuState where
  q1 : ℚ
  mu1 : ℚ
  maxSigma : ℚ
  maxVal : ℕ

/-- One iteration of OpenCV's Otsu scan at candidate threshold `i`. -/
def otsuStep (img : Img) (n mu : ℚ) (s : OtsuState) (i : ℕ) : OtsuState :=
  let pI : ℚ := (histCount img i : ℚ) / n
  let mu1a := s.mu1 * s.q1
  let q1 := s.q1 + pI
  let q2 := 1 - q1
  if q1 = 0 ∨ q2 = 0 then ⟨q1, mu1a, s.maxSigma, s.maxVal⟩
  else
    let mu1 := (mu1a + i * pI) / q1
    let mu2 := (mu - q1 * mu1) / q2
    let sigma := q1 * q2 * (mu1 - mu2) * (mu1 - mu2)
    if s.maxSigma < sigma then ⟨q1, mu1, sigma, i⟩
    else ⟨q1, mu1, s.maxSigma, s.maxVal⟩

/-- The Otsu threshold of a slice: the candidate threshold maximising the
between-class variance (first maximiser, as OpenCV's strict-improvement
scan returns). -/
def otsuThreshold (img : Img) : ℕ :=
  let n : ℚ := ((img.h * img.w : ℕ) : ℚ)
  if n = 0 then 0
  else
    let mu : ℚ := (∑ i ∈ Finset.range 256, (i : ℚ) * (histCount img i : ℚ)) / n
    ((List.range 256).foldl (otsuStep img n mu) ⟨0, 0, 0, 0⟩).maxVal

/-- `cv2.threshold(img, t, 255, cv2.THRESH_BINARY)`: pixel is `255` iff its
intensity strictly exceeds `t`, else `0`. -/
def thresholdBinary (img : Img) (t : ℕ) : Img where
  h := img.h
  w := img.w
  px := fun y x =>
    if y < img.h ∧ x < img.w ∧ t < img.px y x then 255 else 0

/-- `threshold_val = min(otsu_thresh + 59, 255)`: the biased, clamped
threshold actually applied. -/
def threshVal (img : Img) : ℕ := min (otsuThreshold img + 59) 255

/-- The initial binary mask of a slice. -/
def binaryMask (img : Img) : Img := thresholdBinary img (threshVal img)

/-- C8: the applied binarization threshold is the slice's Otsu threshold
plus the fixed offset `59`, clamped to at most `255`, and an in-bounds
pixel is classified foreground (`255`) iff its intensity strictly exceeds
that biased threshold; all other pixels are `0`. -/
theorem binaryMask_biased_otsu (img : Img) (y x : ℕ)
    (hy : y < img.h) (hx : x < img.w) :
    threshVal img = min (otsuThreshold img + 59) 255 ∧
    ((binaryMask img).px y x = 255 ↔
      min (otsuThreshold img + 59) 255 < img.px y x) ∧
    (¬ min (otsuThreshold img + 59) 255 < img.px y x →
      (binaryMask img).px y x = 0) := by
  refine ⟨rfl, ?_, ?_⟩
  · show (if y < img.h ∧ x < img.w ∧ threshVal img < img.px y x
        then 255 else 0) = 255 ↔ _
    split
    · next hc => exact iff_of_true rfl hc.2.2
    · next hc =>
      refine iff_of_false (by decide) (fun hlt => hc ⟨hy, hx, hlt⟩)
  · intro hnot
    show (if y < img.h ∧ x < img.w ∧ threshVal img < img.px y x
        then 255 else 0) = 0
    rw [if_neg (fun hc => hnot hc.2.2)]

/-- Witness for C8 at a concrete 2×2 slice. -/
theorem binaryMask_biased_otsu_witness :
    threshVal ⟨2, 2, fun y x => 100 * y + 200 * x⟩ =
      min (otsuThreshold ⟨2, 2, fun y x => 100 * y + 200 * x⟩ + 59) 255 ∧
    ((binaryMask ⟨2, 2, fun y x => 100 * y + 200 * x⟩).px 1 0 = 255 ↔
      min (otsuThreshold ⟨2, 2, fun y x => 100 * y + 200 * x⟩ + 59) 255 <
        (Img.px ⟨2, 2, fun y x => 100 * y + 200 * x⟩) 1 0) ∧
    (¬ min (otsuThreshold ⟨2, 2, fun y x => 100 * y + 200 * x⟩ + 59) 255 <
        (Img.px ⟨2, 2, fun y x => 100 * y + 200 * x⟩) 1 0 →
      (binaryMask ⟨2, 2, fun y x => 100 * y + 200 * x⟩).px 1 0 = 0) :=
  binaryMask_biased_otsu ⟨2, 2, fun y x => 100 * y + 200 * x⟩ 1 0
    (by decide) (by decide)

/-! ## SliceBinarizer: noise suppression, gap closing, contour fill, erosion

The remainder of `src/binarization.py`:

```
num_labels, labels, stats, _ = cv2.connectedComponentsWithStats(binary, connectivity=8)
for i in range(1, num_labels):
    if stats[i, cv2.CC_STAT_AREA] < MIN_AREA: binary[labels == i] = 0

kernel = cv2.getStructuringElement(cv2.MORPH_RECT, (3, 3))
binary_dilated = cv2.dilate(binary, kernel, iterations=2)
contours, _ = cv2.findContours(binary_dilated, cv2.RETR_EXTERNAL, ...)
for cnt in contours: cv2.drawContours(binary_dilated, [cnt], -2, 255, cv2.FILLED)
binary_filled = cv2.erode(binary_dilated, kernel, iterations=2)
```

Connected-component labelling is modelled as 8-connected reachability
among nonzero pixels (the spec: «label 8-connected foreground
components»); a pixel whose component area is below `MIN_AREA = 70` is
reset to `0`.  Dilation/erosion use the 3×3 rectangle with OpenCV's
default border handling (outside pixels do not contribute to the dilation
maximum and count as white for the erosion minimum).  The external-contour
fill is modelled from the spec («detect outer contours of the dilated mask
and fill their interiors solid»): a pixel becomes foreground iff it is
foreground already or its background is not 4-connected to the image
border — i.e. every background region not reachable from the border is
filled. -/

/-- `MIN_AREA = 70`. -/
def MIN_AREA : ℕ := 70

/-- In-range pixel coordinates of an image. -/
abbrev Cell2 (img : Img) : Type := Fin img.h × Fin img.w

/-- Whether a pixel is foreground (nonzero, as OpenCV's labelling and
contour routines treat it). -/
def fgAt (img : Img) (p : Cell2 img) : Bool := !(img.px p.1.val p.2.val == 0)

/-- 8-neighbour adjacency between foreground pixels: distinct cells whose
coordinates each differ by at most one, both foreground. -/
def adj8 (img : Img) (p q : Cell2 img) : Bool :=
  fgAt img p && fgAt img q && !(p == q) &&
    near1 p.1.val q.1.val && near1 p.2.val q.2.val

/-- The 8-connected foreground component of a pixel. -/
def compSet (img : Img) (p : Cell2 img) : Finset (Cell2 img) :=
  floodFill (adj8 img) {p}

/-- The pixel area (`CC_STAT_AREA`) of a pixel's component. -/
def compArea (img : Img) (p : Cell2 img) : ℕ := (compSet img p).card

/-- The noise-suppression step: every pixel of an 8-connected foreground
component of area below `MIN_AREA` is reset to background; all other
pixels keep their value. -/
def noiseRemoved (img : Img) : Img where
  h := img.h
  w := img.w
  px := fun y x =>
    if hy : y < img.h then
      if hx : x < img.w then
        if img.px y x ≠ 0 ∧
            MIN_AREA ≤ compArea img ⟨⟨y, hy⟩, ⟨x, hx⟩⟩ then
          img.px y x
        else 0
      else 0
    else 0

/-- The in-bounds 3×3 neighbourhood of `(y, x)` in an `h × w` grid. -/
def nbr9 (h w y x : ℕ) : List (ℕ × ℕ) :=
  ([-1, 0, 1] : List ℤ).flatMap (fun dy =>
    ([-1, 0, 1] : List ℤ).filterMap (fun dx =>
      let ny := (y : ℤ) + dy
      let nx := (x : ℤ) + dx
      if 0 ≤ ny ∧ ny < (h : ℤ) ∧ 0 ≤ nx ∧ nx < (w : ℤ) then
        some (ny.toNat, nx.toNat)
      else none))

/-- `cv2.dilate` with the 3×3 rectangle: each in-bounds pixel becomes the
maximum over its in-bounds 3×3 neighbourhood (out-of-bounds neighbours do
not contribute). -/
def dilate (img : Img) : Img where
  h := img.h
  w := img.w
  px := fun y x =>
    if y < img.h ∧ x < img.w then
      ((nbr9 img.h img.w y x).map (fun c => img.px c.1 c.2)).foldl max 0
    else 0

/-- `cv2.erode` with the 3×3 rectangle: each in-bounds pixel becomes the
minimum over its in-bounds 3×3 neighbourhood (out-of-bounds neighbours
count as white, OpenCV's erosion border default). -/
def erode (img : Img) : Img where
  h := img.h
  w := img.w
  px := fun y x =>
    if y < img.h ∧ x < img.w then
      ((nbr9 img.h img.w y x).map (fun c => img.px c.1 c.2)).foldl min 255
    else 0

/-- Whether a cell lies on the image border. -/
def onBoundary2 (img : Img) (p : Cell2 img) : Bool :=
  (p.1.val == 0) || (p.1.val + 1 == img.h) ||
  (p.2.val == 0) || (p.2.val + 1 == img.w)

/-- Whether a pixel is background. -/
def bgAt2 (img : Img) (p : Cell2 img) : Bool := img.px p.1.val p.2.val == 0

/-- 4-neighbour adjacency between background pixels. -/
def adj4 (img : Img) (p q : Cell2 img) : Bool :=
  bgAt2 img p && bgAt2 img q &&
    ((p.1.val == q.1.val && ((p.2.val + 1 == q.2.val) || (q.2.val + 1 == p.2.val))) ||
     (p.2.val == q.2.val && ((p.1.val + 1 == q.1.val) || (q.1.val + 1 == p.1.val))))

/-- Background pixels on the image border. -/
def borderBg (img : Img) : Finset (Cell2 img) :=
  Finset.univ.filter (fun p => (bgAt2 img p && onBoundary2 img p) = true)

/-- Background pixels 4-connected to the image border. -/
def bgOutside (img : Img) : Finset (Cell2 img) :=
  floodFill (adj4 img) (borderBg img)

/-- Modelled from the spec: the external-contour fill
(`findContours(RETR_EXTERNAL)` + `drawContours(..., FILLED)`) — a pixel is
foreground in the result iff it is foreground already or its background
region does not reach the image border (everything strictly inside an
outer contour is painted `255`). -/
def contourFill (img : Img) : Img where
  h := img.h
  w := img.w
  px := fun y x =>
    if hy : y < img.h then
      if hx : x < img.w then
        if img.px y x ≠ 0 ∨
            (⟨⟨y, hy⟩, ⟨x, hx⟩⟩ : Cell2 img) ∉ bgOutside img then 255
        else 0
      else 0
    else 0

/-- The full per-slice binarization pipeline of `src/binarization.py`:
biased-Otsu threshold, noise suppression, two dilations, external-contour
fill, two erosions. -/
def sliceBinarize (img : Img) : Img :=
  erode (erode (contourFill (dilate (dilate (noiseRemoved (binaryMask img))))))

/-! ### Value lemmas for C3 -/

/-- Binary values: a predicate stating that every pixel (in or out of
bounds) of the raster is one of the two canonical values. -/
def binaryValued (img : Img) : Prop :=
  ∀ y x, img.px y x = 0 ∨ img.px y x = 255

theorem binaryMask_binaryValued (img : Img) : binaryValued (binaryMask img) := by
  intro y x
  have hpx : (binaryMask img).px y x
      = if y < img.h ∧ x < img.w ∧ threshVal img < img.px y x
        then 255 else 0 := rfl
  rw [hpx]
  split
  · right; rfl
  · left; rfl

theorem noiseRemoved_binaryValued {img : Img} (h : binaryValued img) :
    binaryValued (noiseRemoved img) := by
  intro y x
  have hpx : (noiseRemoved img).px y x
      = if hy : y < img.h then
          if hx : x < img.w then
            if img.px y x ≠ 0 ∧ MIN_AREA ≤ compArea img ⟨⟨y, hy⟩, ⟨x, hx⟩⟩ then
              img.px y x else 0
          else 0 else 0 := rfl
  rw [hpx]
  split
  · split
    · split
      · exact h y x
      · left; rfl
    · left; rfl
  · left; rfl

theorem foldl_max_binary {l : List ℕ} (hl : ∀ v ∈ l, v = 0 ∨ v = 255)
    {a : ℕ} (ha : a = 0 ∨ a = 255) :
    l.foldl max a = 0 ∨ l.foldl max a = 255 := by
  induction l generalizing a with
  | nil => exact ha
  | cons b t ih =>
    have hb := hl b (List.mem_cons_self b t)
    refine ih (fun v hv => hl v (List.mem_cons_of_mem b hv)) ?_
    rcases ha with rfl | rfl <;> rcases hb with rfl | rfl <;> simp

theorem foldl_min_binary {l : List ℕ} (hl : ∀ v ∈ l, v = 0 ∨ v = 255)
    {a : ℕ} (ha : a = 0 ∨ a = 255) :
    l.foldl min a = 0 ∨ l.foldl min a = 255 := by
  induction l generalizing a with
  | nil => exact ha
  | cons b t ih =>
    have hb := hl b (List.mem_cons_self b t)
    refine ih (fun v hv => hl v (List.mem_cons_of_mem b hv)) ?_
    rcases ha with rfl | rfl <;> rcases hb with rfl | rfl <;> simp

theorem dilate_binaryValued {img : Img} (h : binaryValued img) :
    binaryValued (dilate img) := by
  intro y x
  have hpx : (dilate img).px y x
      = if y < img.h ∧ x < img.w then
          ((nbr9 img.h img.w y x).map
            (fun c : ℕ × ℕ => img.px c.1 c.2)).foldl max 0
        else 0 := rfl
  rw [hpx]
  split
  · exact foldl_max_binary
      (by
        intro v hv
        obtain ⟨⟨cy, cx⟩, _, rfl⟩ := List.mem_map.mp hv
        exact h cy cx)
      (Or.inl rfl)
  · left; rfl

theorem erode_binaryValued {img : Img} (h : binaryValued img) :
    binaryValued (erode img) := by
  intro y x
  have hpx : (erode img).px y x
      = if y < img.h ∧ x < img.w then
          ((nbr9 img.h img.w y x).map
            (fun c : ℕ × ℕ => img.px c.1 c.2)).foldl min 255
        else 0 := rfl
  rw [hpx]
  split
  · exact foldl_min_binary
      (by
        intro v hv
        obtain ⟨⟨cy, cx⟩, _, rfl⟩ := List.mem_map.mp hv
        exact h cy cx)
      (Or.inr rfl)
  · left; rfl

theorem contourFill_binaryValued (img : Img) :
    binaryValued (contourFill img) := by
  intro y x
  have hpx : (contourFill img).px y x
      = if hy : y < img.h then
          if hx : x < img.w then
            if img.px y x ≠ 0 ∨
                (⟨⟨y, hy⟩, ⟨x, hx⟩⟩ : Cell2 img) ∉ bgOutside img
            then 255 else 0
          else 0 else 0 := rfl
  rw [hpx]
  split
  · split
    · split
      · right; rfl
      · left; rfl
    · left; rfl
  · left; rfl

/-- C3: the binarization pipeline preserves the slice's pixel dimensions,
and every pixel of the final mask is one of the two canonical binary
values `0` and `255`. -/
theorem sliceBinarize_shape_and_binary (img : Img) :
    (sliceBinarize img).h = img.h ∧ (sliceBinarize img).w = img.w ∧
    binaryValued (sliceBinarize img) :=
  ⟨rfl, rfl,
    erode_binaryValued (erode_binaryValued (contourFill_binaryValued _))⟩

/-! ## SurfaceExtractor: isosurface extraction

The source extracts the surface with

```
verts, faces, normals, values = measure.marching_cubes(
    volume_filled, level=0.5, spacing=(voxel_size, voxel_size, voxel_size),
    step_size=marching_step)
```

scikit-image's marching-cubes implementation is not part of this
repository.  Modelled from the spec: «apply a marching-cubes isosurface
extraction over the 3-D voxel field at the given level, scaling resulting
vertex coordinates by PhysicalSpacing», with «Degenerate input (an
all-background or all-foreground volume) yields an empty mesh (zero
faces) rather than failing».  The model is a marching-tetrahedra variant
of the cube scan: each unit cube of the voxel grid is split into six
tetrahedra around the main diagonal, and a tetrahedron contributes
triangles (with vertices at crossed-edge midpoints, scaled by the fixed
`voxel_size = 4.0` spacing) exactly when the level `0.5` separates its
corners, i.e. when its corners are not all foreground or all background.
A uniform cube contributes nothing, so the extraction is total and yields
the empty triangle list on degenerate volumes. -/

/-- `voxel_size = 4.0` (mm): the uniform physical spacing. -/
def voxelSize : ℚ := 4

/-- Corner `c` (0–7) of the unit cube, as `(dz, dy, dx)` offsets:
bit 2 = z, bit 1 = y, bit 0 = x. -/
def cornerOff (c : ℕ) : ℕ × ℕ × ℕ := (c / 4, c / 2 % 2, c % 2)

/-- Midpoint of the cube edge between corners `a` and `b` of the cube at
`(z, y, x)`, scaled by the physical spacing. -/
def edgeMid (z y x a b : ℕ) : Vec3 :=
  (voxelSize * (((z + (cornerOff a).1 : ℕ) : ℚ) + ((z + (cornerOff b).1 : ℕ) : ℚ)) / 2,
   voxelSize * (((y + (cornerOff a).2.1 : ℕ) : ℚ) + ((y + (cornerOff b).2.1 : ℕ) : ℚ)) / 2,
   voxelSize * (((x + (cornerOff a).2.2 : ℕ) : ℚ) + ((x + (cornerOff b).2.2 : ℕ) : ℚ)) / 2)

/-- Triangles of one tetrahedron `(a, b, c, d)` of the cube at `(z, y, x)`,
given the four corner classifications (`true` = above the `0.5` level):
no triangle when all corners agree, one triangle when one corner is
separated, two (a quad) when the level splits the corners two against
two. -/
def tetTris (z y x a b c d : ℕ) (va vb vc vd : Bool) : List Tri :=
  match va, vb, vc, vd with
  | true, true, true, true => []
  | false, false, false, false => []
  | true, false, false, false =>
      [(edgeMid z y x a b, edgeMid z y x a c, edgeMid z y x a d)]
  | false, true, true, true =>
      [(edgeMid z y x a b, edgeMid z y x a c, edgeMid z y x a d)]
  | false, true, false, false =>
      [(edgeMid z y x b a, edgeMid z y x b c, edgeMid z y x b d)]
  | true, false, true, true =>
      [(edgeMid z y x b a, edgeMid z y x b c, edgeMid z y x b d)]
  | false, false, true, false =>
      [(edgeMid z y x c a, edgeMid z y x c b, edgeMid z y x c d)]
  | true, true, false, true =>
      [(edgeMid z y x c a, edgeMid z y x c b, edgeMid z y x c d)]
  | false, false, false, true =>
      [(edgeMid z y x d a, edgeMid z y x d b, edgeMid z y x d c)]
  | true, true, true, false =>
      [(edgeMid z y x d a, edgeMid z y x d b, edgeMid z y x d c)]
  | true, true, false, false =>
      [(edgeMid z y x a c, edgeMid z y x a d, edgeMid z y x b d),
       (edgeMid z y x a c, edgeMid z y x b d, edgeMid z y x b c)]
  | false, false, true, true =>
      [(edgeMid z y x a c, edgeMid z y x a d, edgeMid z y x b d),
       (edgeMid z y x a c, edgeMid z y x b d, edgeMid z y x b c)]
  | true, false, true, false =>
      [(edgeMid z y x a b, edgeMid z y x a d, edgeMid z y x c d),
       (edgeMid z y x a b, edgeMid z y x c d, edgeMid z y x c b)]
  | false, true, false, true =>
      [(edgeMid z y x a b, edgeMid z y x a d, edgeMid z y x c d),
       (edgeMid z y x a b, edgeMid z y x c d, edgeMid z y x c b)]
  | true, false, false, true =>
      [(edgeMid z y x a b, edgeMid z y x a c, edgeMid z y x d c),
       (edgeMid z y x a b, edgeMid z y x d c, edgeMid z y x d b)]
  | false, true, true, false =>
      [(edgeMid z y x a b, edgeMid z y x a c, edgeMid z y x d c),
       (edgeMid z y x a b, edgeMid z y x d c, edgeMid z y x d b)]

/-- The six tetrahedra of a cube, all sharing the main diagonal `0–7`. -/
def cubeTets : List (ℕ × ℕ × ℕ × ℕ) :=
  [(0, 1, 3, 7), (0, 2, 3, 7), (0, 1, 5, 7),
   (0, 4, 5, 7), (0, 2, 6, 7), (0, 4, 6, 7)]

/-- Classification of corner `c` of the cube at `(z, y, x)`: whether the
binary voxel there lies above the `0.5` level. -/
def cornerAbove (v : Vol) (z y x c : ℕ) : Bool :=
  v.vox (z + (cornerOff c).1) (y + (cornerOff c).2.1) (x + (cornerOff c).2.2)

/-- Triangles contributed by the cube at `(z, y, x)`. -/
def cubeTris (v : Vol) (z y x : ℕ) : List Tri :=
  cubeTets.flatMap (fun t =>
    tetTris z y x t.1 t.2.1 t.2.2.1 t.2.2.2
      (cornerAbove v z y x t.1) (cornerAbove v z y x t.2.1)
      (cornerAbove v z y x t.2.2.1) (cornerAbove v z y x t.2.2.2))

/-- SurfaceExtractor: scan every unit cube of the voxel grid and collect
the triangles of the level-`0.5` isosurface, in physical coordinates.
Total on every volume: degenerate input cannot make it fail. -/
def surfaceExtract (v : Vol) : List Tri :=
  (List.range (v.d - 1)).flatMap (fun z =>
    (List.range (v.h - 1)).flatMap (fun y =>
      (List.range (v.w - 1)).flatMap (fun x => cubeTris v z y x)))

theorem flatMap_eq_nil_of_forall {α β : Type} {l : List α} {f : α → List β}
    (h : ∀ a ∈ l, f a = []) : l.flatMap f = [] := by
  induction l with
  | nil => rfl
  | cons a t ih =>
    rw [List.flatMap_cons, h a (List.mem_cons_self a t),
      ih (fun b hb => h b (List.mem_cons_of_mem a hb))]
    rfl

theorem tetTris_const (z y x a b c d : ℕ) (bv : Bool) :
    tetTris z y x a b c d bv bv bv bv = [] := by
  cases bv <;> rfl

/-- C1: on a volume whose in-range voxels are all background (or all
foreground), SurfaceExtractor returns normally with zero faces: every
cube's corners agree, so no tetrahedron emits a triangle. -/
theorem surfaceExtract_uniform_empty (v : Vol) (bv : Bool)
    (hconst : ∀ z y x, z < v.d → y < v.h → x < v.w → v.vox z y x = bv) :
    surfaceExtract v = [] := by
  apply flatMap_eq_nil_of_forall
  intro z hz
  apply flatMap_eq_nil_of_forall
  intro y hy
  apply flatMap_eq_nil_of_forall
  intro x hx
  rw [List.mem_range] at hz hy hx
  have hcorner : ∀ c, c < 8 → cornerAbove v z y x c = bv := by
    intro c hc
    apply hconst
    · have : (cornerOff c).1 ≤ 1 := by
        show c / 4 ≤ 1
        omega
      omega
    · have : (cornerOff c).2.1 ≤ 1 := by
        show c / 2 % 2 ≤ 1
        omega
      omega
    · have : (cornerOff c).2.2 ≤ 1 := by
        show c % 2 ≤ 1
        omega
      omega
  apply flatMap_eq_nil_of_forall
  intro t ht
  fin_cases ht <;>
    simp only [hcorner 0 (by omega), hcorner 1 (by omega), hcorner 2 (by omega),
      hcorner 3 (by omega), hcorner 4 (by omega), hcorner 5 (by omega),
      hcorner 6 (by omega), hcorner 7 (by omega)] <;>
    exact tetTris_const _ _ _ _ _ _ _ bv

/-- Witness for C1: the all-background 3×3×3 volume yields zero faces. -/
theorem surfaceExtract_uniform_empty_witness :
    surfaceExtract ⟨3, 3, 3, fun _ _ _ => false⟩ = [] :=
  surfaceExtract_uniform_empty ⟨3, 3, 3, fun _ _ _ => false⟩ false
    (fun _ _ _ _ _ _ => rfl)

/-! ## Noise suppression invariants (partial results towards C4)

The noise-suppression step runs on the thresholded mask *before* the
dilation / contour-fill / erosion stages.  Two invariants are proved here:
every foreground pixel of the noise-suppressed mask belongs to a component
of area at least `MIN_AREA` (`noiseRemoved_component_large`), and the
final mask of the pipeline contains the noise-suppressed mask pixelwise
(`sliceBinarize_superset`, the extensivity of closing-with-fill).
Together they give: every component of the final mask that intersects the
noise-suppressed mask has area at least `MIN_AREA`
(`sliceBinarize_component_large_of_meets`). -/

theorem mem_nbr9 {h w y x ny nx : ℕ} :
    (ny, nx) ∈ nbr9 h w y x ↔
      ny < h ∧ nx < w ∧ (ny : ℤ) - y ≤ 1 ∧ (y : ℤ) - ny ≤ 1 ∧
        (nx : ℤ) - x ≤ 1 ∧ (x : ℤ) - nx ≤ 1 := by
  unfold nbr9
  simp only [List.mem_flatMap, List.mem_filterMap, List.mem_cons,
    List.not_mem_nil, or_false]
  constructor
  · rintro ⟨dy, hdy, dx, hdx, hsome⟩
    split at hsome
    · next hcond =>
      obtain ⟨h1, h2, h3, h4⟩ := hcond
      injection hsome with hpair
      have hny : ((y : ℤ) + dy).toNat = ny := congrArg Prod.fst hpair
      have hnx : ((x : ℤ) + dx).toNat = nx := congrArg Prod.snd hpair
      rcases hdy with rfl | rfl | rfl <;> rcases hdx with rfl | rfl | rfl <;>
        refine ⟨by omega, by omega, by omega, by omega, by omega, by omega⟩
    · cases hsome
  · rintro ⟨hh, hw, h1, h2, h3, h4⟩
    refine ⟨(ny : ℤ) - y, by omega, (nx : ℤ) - x, by omega, ?_⟩
    rw [if_pos (by refine ⟨by omega, by omega, by omega, by omega⟩)]
    have e1 : ((y : ℤ) + ((ny : ℤ) - y)).toNat = ny := by omega
    have e2 : ((x : ℤ) + ((nx : ℤ) - x)).toNat = nx := by omega
    rw [e1, e2]

theorem le_foldl_max {l : List ℕ} {a : ℕ} (ha : a ∈ l) (i : ℕ) :
    a ≤ l.foldl max i := by
  induction l generalizing i with
  | nil => cases ha
  | cons b t ih =>
    rcases List.mem_cons.mp ha with rfl | ha
    · have hinit : ∀ (m : List ℕ) (j : ℕ), j ≤ m.foldl max j := by
        intro m
        induction m with
        | nil => exact fun j => le_refl j
        | cons c s ihm =>
          intro j
          exact le_trans (le_max_left j c) (ihm (max j c))
      exact le_trans (le_max_right i a) (hinit t (max i a))
    · exact ih ha (max i b)

theorem foldl_min_eq_of_all {l : List ℕ} (h : ∀ v ∈ l, v = 255) :
    l.foldl min 255 = 255 := by
  induction l with
  | nil => rfl
  | cons b t ih =>
    have hb := h b (List.mem_cons_self b t)
    rw [List.foldl_cons, hb, min_self]
    exact ih (fun v hv => h v (List.mem_cons_of_mem b hv))

theorem dilate_px_eq (X : Img) {y x : ℕ} (hy : y < X.h) (hx : x < X.w) :
    (dilate X).px y x =
      ((nbr9 X.h X.w y x).map (fun c : ℕ × ℕ => X.px c.1 c.2)).foldl max 0 := by
  have : (dilate X).px y x
      = if y < X.h ∧ x < X.w then
          ((nbr9 X.h X.w y x).map (fun c : ℕ × ℕ => X.px c.1 c.2)).foldl max 0
        else 0 := rfl
  rw [this, if_pos ⟨hy, hx⟩]

theorem erode_px_eq (X : Img) {y x : ℕ} (hy : y < X.h) (hx : x < X.w) :
    (erode X).px y x =
      ((nbr9 X.h X.w y x).map (fun c : ℕ × ℕ => X.px c.1 c.2)).foldl min 255 := by
  have : (erode X).px y x
      = if y < X.h ∧ x < X.w then
          ((nbr9 X.h X.w y x).map (fun c : ℕ × ℕ => X.px c.1 c.2)).foldl min 255
        else 0 := rfl
  rw [this, if_pos ⟨hy, hx⟩]

/-- Dilation turns a pixel foreground whenever some in-bounds 3×3
neighbour is foreground. -/
theorem dilate_fg_of_nbr {X : Img} (hb : binaryValued X) {y x ny nx : ℕ}
    (hy : y < X.h) (hx : x < X.w) (hq : (ny, nx) ∈ nbr9 X.h X.w y x)
    (hfg : X.px ny nx = 255) : (dilate X).px y x = 255 := by
  have hge : 255 ≤ (dilate X).px y x := by
    rw [dilate_px_eq X hy hx]
    have : X.px ny nx ∈ (nbr9 X.h X.w y x).map
        (fun c : ℕ × ℕ => X.px c.1 c.2) :=
      List.mem_map_of_mem _ hq
    rw [hfg] at this
    exact le_foldl_max this 0
  rcases dilate_binaryValued hb y x with h0 | h255
  · omega
  · exact h255

/-- The double dilation reaches every in-bounds pixel within Chebyshev
distance 2 of a foreground pixel. -/
theorem dilate2_ball {X : Img} (hb : binaryValued X) {py pxc ry rx : ℕ}
    (hpy : py < X.h) (hpx : pxc < X.w) (hfg : X.px py pxc = 255)
    (hry : ry < X.h) (hrx : rx < X.w)
    (h1 : (ry : ℤ) - py ≤ 2) (h2 : (py : ℤ) - ry ≤ 2)
    (h3 : (rx : ℤ) - pxc ≤ 2) (h4 : (pxc : ℤ) - rx ≤ 2) :
    (dilate (dilate X)).px ry rx = 255 := by
  have hmy : (py + ry) / 2 < X.h := by omega
  have hmx : (pxc + rx) / 2 < X.w := by omega
  have hmem1 : (py, pxc) ∈ nbr9 X.h X.w ((py + ry) / 2) ((pxc + rx) / 2) := by
    rw [mem_nbr9]
    refine ⟨hpy, hpx, by omega, by omega, by omega, by omega⟩
  have hmid : (dilate X).px ((py + ry) / 2) ((pxc + rx) / 2) = 255 :=
    dilate_fg_of_nbr hb hmy hmx hmem1 hfg
  have hmem2 : ((py + ry) / 2, (pxc + rx) / 2) ∈ nbr9 X.h X.w ry rx := by
    rw [mem_nbr9]
    refine ⟨hmy, hmx, by omega, by omega, by omega, by omega⟩
  exact dilate_fg_of_nbr (dilate_binaryValued hb) hry hrx hmem2 hmid

theorem contourFill_fg {X : Img} {y x : ℕ} (hy : y < X.h) (hx : x < X.w)
    (hfg : X.px y x ≠ 0) : (contourFill X).px y x = 255 := by
  have : (contourFill X).px y x
      = if hy : y < X.h then
          if hx : x < X.w then
            if X.px y x ≠ 0 ∨
                (⟨⟨y, hy⟩, ⟨x, hx⟩⟩ : Cell2 X) ∉ bgOutside X
            then 255 else 0
          else 0 else 0 := rfl
  rw [this, dif_pos hy, dif_pos hx, if_pos (Or.inl hfg)]

theorem erode_fg_of_ball {X : Img} {y x : ℕ} (hy : y < X.h) (hx : x < X.w)
    (hall : ∀ ny nx, (ny, nx) ∈ nbr9 X.h X.w y x → X.px ny nx = 255) :
    (erode X).px y x = 255 := by
  rw [erode_px_eq X hy hx]
  apply foldl_min_eq_of_all
  intro v hv
  obtain ⟨⟨cy, cx⟩, hc, rfl⟩ := List.mem_map.mp hv
  exact hall cy cx hc

/-- Extensivity of the morphology tail of the pipeline: every foreground
pixel of the noise-suppressed mask is still foreground in the final mask
(dilate–dilate–fill–erode–erode only grows the retained structures). -/
theorem sliceBinarize_superset (img : Img) {y x : ℕ}
    (hy : y < img.h) (hx : x < img.w)
    (hfg : (noiseRemoved (binaryMask img)).px y x ≠ 0) :
    (sliceBinarize img).px y x = 255 := by
  have hbA : binaryValued (noiseRemoved (binaryMask img)) :=
    noiseRemoved_binaryValued (binaryMask_binaryValued img)
  have hA : (noiseRemoved (binaryMask img)).px y x = 255 := by
    rcases hbA y x with h0 | h255
    · exact absurd h0 hfg
    · exact h255
  have hD2 : ∀ ry rx : ℕ, ry < img.h → rx < img.w →
      (ry : ℤ) - y ≤ 2 → (y : ℤ) - ry ≤ 2 →
      (rx : ℤ) - x ≤ 2 → (x : ℤ) - rx ≤ 2 →
      (dilate (dilate (noiseRemoved (binaryMask img)))).px ry rx = 255 := by
    intro ry rx hry hrx h1 h2 h3 h4
    exact dilate2_ball hbA hy hx hA hry hrx h1 h2 h3 h4
  have hF : ∀ ry rx : ℕ, ry < img.h → rx < img.w →
      (ry : ℤ) - y ≤ 2 → (y : ℤ) - ry ≤ 2 →
      (rx : ℤ) - x ≤ 2 → (x : ℤ) - rx ≤ 2 →
      (contourFill (dilate (dilate (noiseRemoved (binaryMask img))))).px ry rx
        = 255 := by
    intro ry rx hry hrx h1 h2 h3 h4
    refine contourFill_fg hry hrx ?_
    rw [hD2 ry rx hry hrx h1 h2 h3 h4]
    omega
  have hE1 : ∀ qy qx : ℕ,
      (qy, qx) ∈ nbr9 img.h img.w y x →
      (erode (contourFill (dilate (dilate
        (noiseRemoved (binaryMask img)))))).px qy qx = 255 := by
    intro qy qx hq
    rw [mem_nbr9] at hq
    obtain ⟨hqy, hqx, hq1, hq2, hq3, hq4⟩ := hq
    refine erode_fg_of_ball hqy hqx ?_
    intro ry rx hr
    rw [mem_nbr9] at hr
    obtain ⟨hry, hrx, hr1, hr2, hr3, hr4⟩ := hr
    exact hF ry rx hry hrx (by omega) (by omega) (by omega) (by omega)
  exact erode_fg_of_ball hy hx (fun ny nx hn => hE1 ny nx hn)

/-! ### Components of the noise-suppressed mask -/

theorem near1_symm {a b : ℕ} (h : near1 a b = true) : near1 b a = true := by
  simp only [near1, Bool.or_eq_true, beq_iff_eq] at h ⊢
  omega

theorem adj8_fields {img : Img} {p q : Cell2 img} (h : adj8 img p q = true) :
    fgAt img p = true ∧ fgAt img q = true ∧ p ≠ q ∧
      near1 p.1.val q.1.val = true ∧ near1 p.2.val q.2.val = true := by
  simp only [adj8, Bool.and_eq_true, Bool.not_eq_true', beq_eq_false_iff_ne]
    at h
  exact ⟨h.1.1.1.1, h.1.1.1.2, h.1.1.2, h.1.2, h.2⟩

theorem adj8_mk {img : Img} {p q : Cell2 img} (h1 : fgAt img p = true)
    (h2 : fgAt img q = true) (h3 : p ≠ q) (h4 : near1 p.1.val q.1.val = true)
    (h5 : near1 p.2.val q.2.val = true) : adj8 img p q = true := by
  simp only [adj8, Bool.and_eq_true, Bool.not_eq_true', beq_eq_false_iff_ne]
  exact ⟨⟨⟨⟨h1, h2⟩, h3⟩, h4⟩, h5⟩

theorem adj8_symm {img : Img} {p q : Cell2 img} (h : adj8 img p q = true) :
    adj8 img q p = true := by
  obtain ⟨h1, h2, h3, h4, h5⟩ := adj8_fields h
  exact adj8_mk h2 h1 (fun e => h3 e.symm) (near1_symm h4) (near1_symm h5)

theorem mem_compSet_iff {img : Img} {p q : Cell2 img} :
    q ∈ compSet img p ↔
      Relation.ReflTransGen (fun a b => adj8 img a b = true) p q := by
  unfold compSet
  rw [mem_floodFill_iff]
  constructor
  · rintro ⟨r, hr, hrtg⟩
    rw [Finset.mem_singleton] at hr
    exact hr ▸ hrtg
  · intro h
    exact ⟨p, Finset.mem_singleton_self p, h⟩

theorem compSet_eq_of_mem {img : Img} {p q : Cell2 img}
    (hq : q ∈ compSet img p) : compSet img q = compSet img p := by
  have hsym : Symmetric (fun a b : Cell2 img => adj8 img a b = true) :=
    fun a b h => adj8_symm h
  have hpq := mem_compSet_iff.mp hq
  have hqp := Relation.ReflTransGen.symmetric hsym hpq
  ext r
  rw [mem_compSet_iff, mem_compSet_iff]
  exact ⟨fun h => Relation.ReflTransGen.trans hpq h,
         fun h => Relation.ReflTransGen.trans hqp h⟩

theorem fg_of_mem_compSet {img : Img} {p q : Cell2 img}
    (hp : fgAt img p = true) (hq : q ∈ compSet img p) : fgAt img q = true := by
  have h := mem_compSet_iff.mp hq
  induction h with
  | refl => exact hp
  | tail _ hstep _ => exact (adj8_fields hstep).2.1

/-- Pixelwise characterisation of the noise-suppression step at in-bounds
cells: a pixel survives iff it is foreground with a component of area at
least `MIN_AREA`, and then it keeps its value. -/
theorem noiseRemoved_px_at (img : Img) (q : Cell2 img) :
    (noiseRemoved img).px q.1.val q.2.val =
      if img.px q.1.val q.2.val ≠ 0 ∧ MIN_AREA ≤ compArea img q then
        img.px q.1.val q.2.val
      else 0 := by
  have : (noiseRemoved img).px q.1.val q.2.val
      = if hy : q.1.val < img.h then
          if hx : q.2.val < img.w then
            if img.px q.1.val q.2.val ≠ 0 ∧
                MIN_AREA ≤ compArea img ⟨⟨q.1.val, hy⟩, ⟨q.2.val, hx⟩⟩ then
              img.px q.1.val q.2.val
            else 0
          else 0 else 0 := rfl
  rw [this, dif_pos q.1.isLt, dif_pos q.2.isLt]

theorem noiseRemoved_fg_iff (img : Img) (q : Cell2 img) :
    (noiseRemoved img).px q.1.val q.2.val ≠ 0 ↔
      img.px q.1.val q.2.val ≠ 0 ∧ MIN_AREA ≤ compArea img q := by
  rw [noiseRemoved_px_at]
  split
  · next hc => exact iff_of_true hc.1 hc
  · next hc => exact iff_of_false (fun h => h rfl) hc

theorem adj8_noiseRemoved_imp {img : Img} {p q : Cell2 img}
    (h : adj8 (noiseRemoved img) p q = true) : adj8 img p q = true := by
  obtain ⟨h1, h2, h3, h4, h5⟩ := adj8_fields h
  have hf : ∀ r : Cell2 img, fgAt (noiseRemoved img) r = true →
      fgAt img r = true := by
    intro r hr
    simp only [fgAt, Bool.not_eq_true', beq_eq_false_iff_ne] at hr ⊢
    exact ((noiseRemoved_fg_iff img r).mp hr).1
  exact adj8_mk (hf p h1) (hf q h2) h3 h4 h5

/-- Noise suppression preserves the component of every retained pixel:
the 8-connected component of a surviving pixel in the cleaned mask is
exactly its component in the original mask. -/
theorem compSet_noiseRemoved (img : Img) (p : Cell2 img)
    (hpfg : img.px p.1.val p.2.val ≠ 0)
    (hparea : MIN_AREA ≤ compArea img p) :
    compSet (noiseRemoved img) p = compSet img p := by
  ext q
  rw [mem_compSet_iff, mem_compSet_iff]
  constructor
  · exact Relation.ReflTransGen.mono (fun a b => adj8_noiseRemoved_imp)
  · intro h
    have hkept : ∀ r : Cell2 img, r ∈ compSet img p →
        fgAt (noiseRemoved img) r = true := by
      intro r hr
      have hrfg : fgAt img r = true := by
        refine fg_of_mem_compSet ?_ hr
        simp only [fgAt, Bool.not_eq_true', beq_eq_false_iff_ne]
        exact hpfg
      have hrarea : MIN_AREA ≤ compArea img r := by
        unfold compArea
        rw [compSet_eq_of_mem hr]
        exact hparea
      simp only [fgAt, Bool.not_eq_true', beq_eq_false_iff_ne] at hrfg ⊢
      exact (noiseRemoved_fg_iff img r).mpr ⟨hrfg, hrarea⟩
    induction h with
    | refl => exact Relation.ReflTransGen.refl
    | tail hb hstep ih =>
      rename_i b c
      obtain ⟨h1, h2, h3, h4, h5⟩ := adj8_fields hstep
      have hbmem : b ∈ compSet img p := mem_compSet_iff.mpr hb
      have hcmem : c ∈ compSet img p :=
        mem_compSet_iff.mpr (Relation.ReflTransGen.tail hb hstep)
      exact Relation.ReflTransGen.tail ih
        (adj8_mk (hkept b hbmem) (hkept c hcmem) h3 h4 h5)

/-- Partial result for C4 (the noise-suppression invariant at its stage):
every foreground pixel of the noise-suppressed mask belongs to an
8-connected component of area at least `MIN_AREA = 70` of that mask. -/
theorem noiseRemoved_component_large (img : Img) (p : Cell2 img)
    (hfg : (noiseRemoved img).px p.1.val p.2.val ≠ 0) :
    MIN_AREA ≤ compArea (noiseRemoved img) p := by
  obtain ⟨hpfg, hparea⟩ := (noiseRemoved_fg_iff img p).mp hfg
  unfold compArea
  rw [compSet_noiseRemoved img p hpfg hparea]
  exact hparea

set_option maxHeartbeats 2000000 in
/-- Partial result for C4: every component of the final mask that contains
a pixel retained by the noise suppression has area at least
`MIN_AREA = 70` (the morphology tail only grows those components).  What
remains unproven towards C4 itself is that the final mask has no
component disjoint from the noise-suppressed mask. -/
theorem sliceBinarize_component_large_of_meets (img : Img)
    (p q : Cell2 img)
    (hq : q ∈ compSet (sliceBinarize img) p)
    (hqA : (noiseRemoved (binaryMask img)).px q.1.val q.2.val ≠ 0) :
    MIN_AREA ≤ compArea (sliceBinarize img) p := by
  have hAfg : ∀ r : Cell2 img,
      fgAt (noiseRemoved (binaryMask img)) r = true →
      fgAt (sliceBinarize img) r = true := by
    intro r hr
    simp only [fgAt, Bool.not_eq_true', beq_eq_false_iff_ne] at hr ⊢
    rw [sliceBinarize_superset img r.1.isLt r.2.isLt hr]
    omega
  have hsub : compSet (noiseRemoved (binaryMask img)) q ⊆
      compSet (sliceBinarize img) q := by
    intro r hr
    rw [mem_compSet_iff] at hr ⊢
    refine Relation.ReflTransGen.mono ?_ hr
    intro a b hab
    obtain ⟨h1, h2, h3, h4, h5⟩ := adj8_fields hab
    exact adj8_mk (hAfg a h1) (hAfg b h2) h3 h4 h5
  have hlarge : MIN_AREA ≤ compArea (noiseRemoved (binaryMask img)) q :=
    noiseRemoved_component_large (binaryMask img) q hqA
  calc MIN_AREA ≤ (compSet (noiseRemoved (binaryMask img)) q).card := hlarge
    _ ≤ (compSet (sliceBinarize img) q).card := Finset.card_le_card hsub
    _ = compArea (sliceBinarize img) p := by
        unfold compArea
        rw [compSet_eq_of_mem hq]

end DicomStl
